import Mathlib

/-!
Verification of the batching pipeline in bubnovdm/PipeProducerConsumer.

The repository contains two implementations of `Pipe`:
  * `src/unnamed/part_000` — a sequential loop that fetches, buffers up to
    `MaxItems`, processes and commits inline;
  * `src/main.go` — a two-goroutine version: a fetch goroutine accumulating
    batches and sending them over a buffered channel, and a delivery
    goroutine processing batches and committing cookies, with a
    `sync.Once`-guarded first error and `context` cancellation.

We embed both.  Records and errors are opaque to the code, so we model them
as `Nat` and `String`.  Go's `int` cookie becomes `Int`.  The Go comparison
`(MaxItems - len(buffer)) < len(items)` is int arithmetic, so we compute it
in `Int` (never truncated `Nat` subtraction).  Runs are driven by a script:
the list of successive results of `Producer.Next`.  External collaborators
are oracles: `pe : List Rec → Option Err` gives the result of
`Consumer.Process` on a records list (`none` = success) and
`ce : Int → Option Err` the result of `Producer.Commit` on a cookie.
Traces record every Process and Commit call; each Process event also
carries, as ghost data, the cookies of the batch it covers (the code
itself passes only the records).
-/

namespace PipeVerify

/-- Records are opaque payload units in the code; we model them as `Nat`. -/
abbrev Rec := Nat

/-- Go `error` values are opaque; we model them as `String`. -/
abbrev Err := String

/-- `const MaxItems = 10000` (both files). -/
def MaxItems : Nat := 10000

/-- One result of `Producer.Next`: either a records list with its cookie,
or an error. -/
inductive NextRes where
  | ok (items : List Rec) (cookie : Int)
  | fail (e : Err)
deriving DecidableEq

/-- Observable calls made by the pipeline.  `processCall` carries the ghost
cookie list of the batch being processed (the Go call passes only items). -/
inductive Event where
  | processCall (items : List Rec) (cookies : List Int) (res : Option Err)
  | commitCall (cookie : Int) (res : Option Err)
deriving DecidableEq

/-- Outcome of a run of the sequential `Pipe` of part_000: either the
function returned (with its error value, `none` = nil), or the driving
script was exhausted while the loop was still running, in which case we
record the accumulator state at that point. -/
inductive RunOut where
  | finished (res : Option Err)
  | outOfScript (buf : List Rec) (cks : List Int)
deriving DecidableEq

/-- The `batch` struct of main.go: the records slice and the cookie slice
sent together over the channel. -/
structure Batch where
  items : List Rec
  cookies : List Int
deriving DecidableEq

/-- Exit cause of the fetch goroutine of main.go, or truncation of the
model run (schedule or script exhausted), with the accumulator state at
truncation. -/
inductive FetchOut where
  | cancelled
  | fetchError (e : Err)
  | outOfSched (buf : List Rec) (cks : List Int)
  | outOfScript (buf : List Rec) (cks : List Int)
deriving DecidableEq

/-- The commit loop shared by every flush site in both files:
`for _, v := range cookies { if err := p.Commit(v); err != nil { return err } }`.
Returns the emitted commit events and the first commit error, if any. -/
def commitRun (ce : Int → Option Err) : List Int → List Event × Option Err
  | [] => ([], none)
  | k :: ks =>
    match ce k with
    | some e => ([.commitCall k (some e)], some e)
    | none =>
      let r := commitRun ce ks
      (.commitCall k none :: r.1, r.2)

/-- The sequential `Pipe` of src/unnamed/part_000 (lines 48-133),
parameterized by the constant `MaxItems` (`m`).  Each loop iteration
consumes one script entry.  Branches, in source order: `Next` error
returns it; zero items flushes a nonempty buffer (process, then commit
each cookie) and breaks with nil; `(MaxItems - len(buffer)) < len(items)`
processes and commits the accumulated buffer, then restarts the buffer
with the incoming items and cookie; `(MaxItems - len(buffer)) > len(items)`
just appends; the exact-fit `else` appends, then processes and commits
immediately.  (The dead counters `totalBatches`/`totalCookies` are not
modelled.) -/
def pipeSeq (m : Nat) (pe : List Rec → Option Err) (ce : Int → Option Err) :
    List NextRes → List Rec → List Int → List Event × RunOut
  | [], buf, cks => ([], .outOfScript buf cks)
  | .fail e :: _, _, _ => ([], .finished (some e))
  | .ok items cookie :: rest, buf, cks =>
    if items.length = 0 then
      if 0 < buf.length then
        match pe buf with
        | some e => ([.processCall buf cks (some e)], .finished (some e))
        | none =>
          let c := commitRun ce cks
          (.processCall buf cks none :: c.1, .finished c.2)
      else ([], .finished none)
    else if (m : Int) - buf.length < items.length then
      match pe buf with
      | some e => ([.processCall buf cks (some e)], .finished (some e))
      | none =>
        let c := commitRun ce cks
        match c.2 with
        | some e => (.processCall buf cks none :: c.1, .finished (some e))
        | none =>
          let r := pipeSeq m pe ce rest items [cookie]
          (.processCall buf cks none :: (c.1 ++ r.1), r.2)
    else if (m : Int) - buf.length > items.length then
      pipeSeq m pe ce rest (buf ++ items) (cks ++ [cookie])
    else
      match pe (buf ++ items) with
      | some e =>
          ([.processCall (buf ++ items) (cks ++ [cookie]) (some e)], .finished (some e))
      | none =>
        let c := commitRun ce (cks ++ [cookie])
        match c.2 with
        | some e =>
            (.processCall (buf ++ items) (cks ++ [cookie]) none :: c.1, .finished (some e))
        | none =>
          let r := pipeSeq m pe ce rest [] []
          (.processCall (buf ++ items) (cks ++ [cookie]) none :: (c.1 ++ r.1), r.2)

/-- main.go lines 110-116: on observing `ctx.Err() != nil` the fetch
goroutine sends the accumulated buffer and cookies as one batch if the
buffer is nonempty, then returns. -/
def flushOnCancel (buf : List Rec) (cks : List Int) : List Batch :=
  if 0 < buf.length then [⟨buf, cks⟩] else []

/-- The fetch goroutine of src/main.go (lines 105-147), parameterized by
`m = MaxItems`.  `sched` supplies, for each loop iteration, the value of
`ctx.Err() != nil` observed at the top of the loop (cancellation is raised
by a concurrent failure; the schedule abstracts its timing).  On a
cancelled iteration the goroutine flushes per `flushOnCancel` and exits.
Otherwise it consumes one script entry: a `Next` error exits (no flush);
zero items continues (the cookie of a zero-item fetch is dropped by the
code); `(MaxItems - len(buffer)) < len(items)` sends the accumulated
batch and resets; then the items and cookie are appended.  Returns the
batches sent on the channel, in order, and the exit cause. -/
def fetchRunC (m : Nat) : List Bool → List NextRes → List Rec → List Int →
    List Batch × FetchOut
  | [], _, buf, cks => ([], .outOfSched buf cks)
  | c :: sched, script, buf, cks =>
    if c then (flushOnCancel buf cks, .cancelled)
    else
      match script with
      | [] => ([], .outOfScript buf cks)
      | .fail e :: _ => ([], .fetchError e)
      | .ok items cookie :: rest =>
        if items.length = 0 then fetchRunC m sched rest buf cks
        else if (m : Int) - buf.length < items.length then
          let r := fetchRunC m sched rest items [cookie]
          (⟨buf, cks⟩ :: r.1, r.2)
        else fetchRunC m sched rest (buf ++ items) (cks ++ [cookie])

/-- The delivery goroutine of src/main.go (lines 151-180): for each batch
received from the channel, call `Process`; on failure report and stop; on
success commit every cookie of the batch in order, stopping at the first
commit error.  Returns the trace and the error it reported (`none` if it
drained all batches cleanly). -/
def deliveryRun (pe : List Rec → Option Err) (ce : Int → Option Err) :
    List Batch → List Event × Option Err
  | [] => ([], none)
  | b :: bs =>
    match pe b.items with
    | some e => ([.processCall b.items b.cookies (some e)], some e)
    | none =>
      let c := commitRun ce b.cookies
      match c.2 with
      | some e => (.processCall b.items b.cookies none :: c.1, some e)
      | none =>
        let r := deliveryRun pe ce bs
        (.processCall b.items b.cookies none :: (c.1 ++ r.1), r.2)

/-- main.go lines 75-77 and the three `errOnce.Do` sites (124-127, 164-167,
172-175): `firstError` is written under `sync.Once`, so only the first
`reportFailure` in program order stores its error. -/
def reportFailure (slot : Option Err) (e : Err) : Option Err :=
  match slot with
  | none => some e
  | some _ => slot

/-- The value `Pipe` returns in main.go: the error slot after folding the
sequence of failure reports (in the order the `errOnce.Do` calls ran)
over the initially empty slot. -/
def runErrSlot (reports : List Err) : Option Err :=
  reports.foldl reportFailure none

/-- Go slice aliasing model for the channel send of main.go.  The fetch
goroutine's `buffer` has a fixed backing array (capacity `MaxItems`);
`store` is the contents of the prefix of that array written so far.
`append(buffer[:0], items...)` overwrites the front of the same backing
array. -/
def writeInto (store items : List Rec) : List Rec :=
  items ++ store.drop items.length

/-- Reading a slice view of length `len` (offset 0) of the shared backing
array: what the delivery goroutine observes for a batch whose `items`
slice had `len` elements when sent. -/
def readView (store : List Rec) (len : Nat) : List Rec :=
  store.take len

/-- Always-succeeding sink oracle. -/
def peOk : List Rec → Option Err := fun _ => none

/-- Always-succeeding commit oracle. -/
def ceOk : Int → Option Err := fun _ => none

/-- The overflow example of the source comments (main.go lines 48-51) and
the spec: four successive fetches of 3000 records with cookies 1..4. -/
def ex3000 : List NextRes :=
  [.ok (List.replicate 3000 0) 1, .ok (List.replicate 3000 0) 2,
    .ok (List.replicate 3000 0) 3, .ok (List.replicate 3000 0) 4]

/-- Cookies of the successful nonzero-record fetches of a script, in
order, up to the first fetch error.  These are the only cookies either
implementation ever retains (both drop the cookie of a zero-record
fetch). -/
def scriptCookies : List NextRes → List Int
  | [] => []
  | .fail _ :: _ => []
  | .ok items k :: rest =>
    if items.length = 0 then scriptCookies rest else k :: scriptCookies rest

/-- The cookies passed to `Commit` along a trace, in call order. -/
def commitsOf : List Event → List Int
  | [] => []
  | .commitCall k _ :: tr => k :: commitsOf tr
  | .processCall _ _ _ :: tr => commitsOf tr

/-- `xs` is an initial segment of `ys`. -/
def IsInitSeg (xs ys : List Int) : Prop := ∃ t, xs ++ t = ys

/-- Every `Process` call in the trace receives at most `m` records. -/
def processOk (m : Nat) : List Event → Bool
  | [] => true
  | .processCall items _ _ :: tr => decide (items.length ≤ m) && processOk m tr
  | .commitCall _ _ :: tr => processOk m tr

/-- Every `Process` call in the trace receives at least one record. -/
def processNonempty : List Event → Bool
  | [] => true
  | .processCall items _ _ :: tr => decide (0 < items.length) && processNonempty tr
  | .commitCall _ _ :: tr => processNonempty tr

/-- The source precondition: every successful `Next` in the script returns
at most `m` records. -/
def okBound (m : Nat) : List NextRes → Bool
  | [] => true
  | .ok items _ :: rest => decide (items.length ≤ m) && okBound m rest
  | .fail _ :: rest => okBound m rest

/-- The cookies of a batch list, flattened in order: exactly the cookies
the delivery goroutine would commit if every call succeeded. -/
def batchCookies : List Batch → List Int
  | [] => []
  | b :: bs => b.cookies ++ batchCookies bs

/-- A trace consisting of `commitCall` events only. -/
def commitOnly : List Event → Bool
  | [] => true
  | .commitCall _ _ :: tr => commitOnly tr
  | .processCall _ _ _ :: _ => false

/-- The error value the sequential `Pipe` returns (`none` when the model
run was truncated by script exhaustion while the loop was still going). -/
def resOf : RunOut → Option Err
  | .finished r => r
  | .outOfScript _ _ => none

/-- Every cookie passed to `Commit` was, at that point of the trace,
already covered by a successful `Process` call (checked against the ghost
cookie lists); `acc` holds the cookies covered so far. -/
def commitsCovered (acc : List Int) : List Event → Bool
  | [] => true
  | .processCall _ cks none :: tr => commitsCovered (acc ++ cks) tr
  | .processCall _ _ (some _) :: tr => commitsCovered acc tr
  | .commitCall k _ :: tr => acc.contains k && commitsCovered acc tr

/-- A failed `Process` call ends the run: if the trace contains a
`processCall` with an error result, it is the last event of the trace and
the run result is that error. -/
def procFailStops (res : Option Err) : List Event → Bool
  | [] => true
  | .processCall _ _ (some e) :: tr => tr.isEmpty && decide (res = some e)
  | .processCall _ _ none :: tr => procFailStops res tr
  | .commitCall _ _ :: tr => procFailStops res tr

/-! ### Basic lemmas about traces and the commit loop -/

lemma commitsOf_append (t1 t2 : List Event) :
    commitsOf (t1 ++ t2) = commitsOf t1 ++ commitsOf t2 := by
  induction t1 with
  | nil => rfl
  | cons e tr ih => cases e <;> simp [commitsOf, ih]

lemma batchCookies_append (b1 b2 : List Batch) :
    batchCookies (b1 ++ b2) = batchCookies b1 ++ batchCookies b2 := by
  induction b1 with
  | nil => rfl
  | cons b bs ih => simp [batchCookies, ih]

lemma processOk_append (m : Nat) (t1 t2 : List Event) :
    processOk m (t1 ++ t2) = (processOk m t1 && processOk m t2) := by
  induction t1 with
  | nil => rfl
  | cons e tr ih => cases e <;> simp [processOk, ih, Bool.and_assoc]

lemma processNonempty_append (t1 t2 : List Event) :
    processNonempty (t1 ++ t2) = (processNonempty t1 && processNonempty t2) := by
  induction t1 with
  | nil => rfl
  | cons e tr ih => cases e <;> simp [processNonempty, ih, Bool.and_assoc]

lemma commitRun_commitOnly (ce : Int → Option Err) (ks : List Int) :
    commitOnly (commitRun ce ks).1 = true := by
  induction ks with
  | nil => rfl
  | cons k ks ih =>
    cases h : ce k with
    | some e => simp [commitRun, h, commitOnly]
    | none => simp [commitRun, h, commitOnly, ih]

lemma commitRun_initSeg (ce : Int → Option Err) (ks : List Int) :
    ∃ t, commitsOf (commitRun ce ks).1 ++ t = ks := by
  induction ks with
  | nil => exact ⟨[], rfl⟩
  | cons k ks ih =>
    cases h : ce k with
    | some e => exact ⟨ks, by simp [commitRun, h, commitsOf]⟩
    | none =>
      obtain ⟨t, ht⟩ := ih
      exact ⟨t, by simp [commitRun, h, commitsOf, ht]⟩

lemma commitRun_none_commits (ce : Int → Option Err) (ks : List Int)
    (h : (commitRun ce ks).2 = none) : commitsOf (commitRun ce ks).1 = ks := by
  induction ks with
  | nil => rfl
  | cons k ks ih =>
    cases hk : ce k with
    | some e => simp [commitRun, hk] at h
    | none =>
      simp [commitRun, hk] at h ⊢
      simp [commitsOf, ih h]

lemma commitsCovered_append_commitOnly (acc : List Int) (t1 t2 : List Event)
    (h : commitOnly t1 = true) :
    commitsCovered acc (t1 ++ t2) = (commitsCovered acc t1 && commitsCovered acc t2) := by
  induction t1 with
  | nil => rfl
  | cons e tr ih =>
    cases e with
    | processCall its cks r => simp [commitOnly] at h
    | commitCall k r => simp [commitOnly] at h; simp [commitsCovered, ih h, Bool.and_assoc]

lemma commitRun_covered (ce : Int → Option Err) (ks acc : List Int)
    (h : ∀ k ∈ ks, acc.contains k = true) :
    commitsCovered acc (commitRun ce ks).1 = true := by
  induction ks with
  | nil => rfl
  | cons k ks ih =>
    have hk : k ∈ acc := by simpa using h k (List.mem_cons_self k ks)
    cases hc : ce k with
    | some e => simp [commitRun, hc, commitsCovered, hk]
    | none =>
      have := ih fun x hx => h x (List.mem_cons_of_mem k hx)
      simp [commitRun, hc, commitsCovered, hk, this]

lemma processOk_commitOnly (m : Nat) (t : List Event) (h : commitOnly t = true) :
    processOk m t = true := by
  induction t with
  | nil => rfl
  | cons e tr ih =>
    cases e with
    | processCall its cks r => simp [commitOnly] at h
    | commitCall k r => simp [commitOnly] at h; simp [processOk, ih h]

lemma processNonempty_commitOnly (t : List Event) (h : commitOnly t = true) :
    processNonempty t = true := by
  induction t with
  | nil => rfl
  | cons e tr ih =>
    cases e with
    | processCall its cks r => simp [commitOnly] at h
    | commitCall k r => simp [commitOnly] at h; simp [processNonempty, ih h]

lemma procFailStops_commitOnly (res : Option Err) (t : List Event)
    (h : commitOnly t = true) : procFailStops res t = true := by
  induction t with
  | nil => rfl
  | cons e tr ih =>
    cases e with
    | processCall its cks r => simp [commitOnly] at h
    | commitCall k r => simp [commitOnly] at h; simp [procFailStops, ih h]

lemma procFailStops_append_commitOnly (res : Option Err) (t1 t2 : List Event)
    (h : commitOnly t1 = true) :
    procFailStops res (t1 ++ t2) = procFailStops res t2 := by
  induction t1 with
  | nil => rfl
  | cons e tr ih =>
    cases e with
    | processCall its cks r => simp [commitOnly] at h
    | commitCall k r => simp [commitOnly] at h; simp [procFailStops, ih h]

/-! ### Step lemmas for the fetch goroutine -/

lemma fetchRunC_cancel (m : Nat) (sched : List Bool) (script : List NextRes)
    (buf : List Rec) (cks : List Int) :
    fetchRunC m (true :: sched) script buf cks = (flushOnCancel buf cks, .cancelled) := rfl

lemma fetchRunC_zero (m : Nat) (sched : List Bool) (rest : List NextRes)
    (buf : List Rec) (cks : List Int) (k : Int) :
    fetchRunC m (false :: sched) (.ok [] k :: rest) buf cks =
      fetchRunC m sched rest buf cks := rfl

lemma fetchRunC_overflow (m : Nat) (sched : List Bool) (rest : List NextRes)
    (buf : List Rec) (cks : List Int) (items : List Rec) (k : Int)
    (h1 : ¬items.length = 0) (h2 : (m : Int) - buf.length < items.length) :
    fetchRunC m (false :: sched) (.ok items k :: rest) buf cks =
      (⟨buf, cks⟩ :: (fetchRunC m sched rest items [k]).1,
        (fetchRunC m sched rest items [k]).2) := by
  simp [fetchRunC, h1, h2]

lemma fetchRunC_appendStep (m : Nat) (sched : List Bool) (rest : List NextRes)
    (buf : List Rec) (cks : List Int) (items : List Rec) (k : Int)
    (h1 : ¬items.length = 0) (h2 : ¬(m : Int) - buf.length < items.length) :
    fetchRunC m (false :: sched) (.ok items k :: rest) buf cks =
      fetchRunC m sched rest (buf ++ items) (cks ++ [k]) := by
  simp [fetchRunC, h1, h2]

/-! ### Invariants of the fetch goroutine -/

/-- Along any cancellation schedule, starting from a buffer within bound,
every batch the fetch goroutine of main.go sends is nonempty and at most
`m` records, and the accumulator stays within bound at every truncation
point. -/
lemma fetchRunC_inv (m : Nat) : ∀ (sched : List Bool) (script : List NextRes)
    (buf : List Rec) (cks : List Int), buf.length ≤ m → okBound m script = true →
    (∀ b ∈ (fetchRunC m sched script buf cks).1, 0 < b.items.length ∧ b.items.length ≤ m)
    ∧ (∀ buf' cks',
        ((fetchRunC m sched script buf cks).2 = .outOfSched buf' cks'
          ∨ (fetchRunC m sched script buf cks).2 = .outOfScript buf' cks') →
        buf'.length ≤ m) := by
  intro sched script buf cks
  induction sched, script, buf, cks using fetchRunC.induct m with
  | case1 script buf cks =>
    intro hb _
    refine ⟨by simp [fetchRunC], ?_⟩
    intro buf' cks' h
    rcases h with h | h <;> simp [fetchRunC] at h
    exact h.1 ▸ hb
  | case2 sched script buf cks =>
    intro hb _
    refine ⟨?_, ?_⟩
    · intro b hb2
      simp only [fetchRunC_cancel, flushOnCancel] at hb2
      by_cases hpos : 0 < buf.length
      · simp [hpos] at hb2
        subst hb2
        exact ⟨hpos, hb⟩
      · simp [hpos] at hb2
    · intro buf' cks' h
      rcases h with h | h <;> simp [fetchRunC_cancel] at h
  | case3 c sched buf cks hc =>
    intro hb _
    have hcf : c = false := by cases c <;> simp_all
    subst hcf
    refine ⟨by simp [fetchRunC], ?_⟩
    intro buf' cks' h
    rcases h with h | h <;> simp [fetchRunC] at h
    exact h.1 ▸ hb
  | case4 c sched buf cks hc e tail =>
    intro hb _
    have hcf : c = false := by cases c <;> simp_all
    subst hcf
    refine ⟨by simp [fetchRunC], ?_⟩
    intro buf' cks' h
    rcases h with h | h <;> simp [fetchRunC] at h
  | case5 c sched buf cks hc items cookie rest hz ih =>
    intro hb hs
    have hcf : c = false := by cases c <;> simp_all
    subst hcf
    have hitems : items = [] := List.length_eq_zero.mp hz
    subst hitems
    have hs2 : okBound m rest = true := by
      simpa [okBound] using hs
    simpa [fetchRunC_zero] using ih hb hs2
  | case6 c sched buf cks hc items cookie rest hz hov ih =>
    intro hb hs
    have hcf : c = false := by cases c <;> simp_all
    subst hcf
    have hsi : items.length ≤ m ∧ okBound m rest = true := by
      simpa [okBound] using hs
    have hbufpos : 0 < buf.length := by
      have h1 := hsi.1
      omega
    have ihr := ih hsi.1 hsi.2
    rw [fetchRunC_overflow m sched rest buf cks items cookie hz hov]
    refine ⟨?_, ?_⟩
    · intro b hmem
      simp only [List.mem_cons] at hmem
      rcases hmem with h | h
      · subst h
        exact ⟨hbufpos, hb⟩
      · exact ihr.1 b h
    · exact ihr.2
  | case7 c sched buf cks hc items cookie rest hz hov ih =>
    intro hb hs
    have hcf : c = false := by cases c <;> simp_all
    subst hcf
    have hsi : items.length ≤ m ∧ okBound m rest = true := by
      simpa [okBound] using hs
    have hlen : (buf ++ items).length ≤ m := by
      simp only [List.length_append]
      omega
    rw [fetchRunC_appendStep m sched rest buf cks items cookie hz hov]
    exact ih hlen hsi.2

/-- Flattened cookies of the batches the fetch goroutine sends, followed
by some remainder, give exactly the cookies of the nonzero-record fetches
of the script (after the pending `cks`): batches carry fetch cookies in
fetch order, with no duplication or reordering. -/
lemma fetchRunC_cookies (m : Nat) : ∀ (sched : List Bool) (script : List NextRes)
    (buf : List Rec) (cks : List Int),
    ∃ t, batchCookies (fetchRunC m sched script buf cks).1 ++ t = cks ++ scriptCookies script := by
  intro sched script buf cks
  induction sched, script, buf, cks using fetchRunC.induct m with
  | case1 script buf cks => exact ⟨cks ++ scriptCookies script, by simp [fetchRunC, batchCookies]⟩
  | case2 sched script buf cks =>
    rw [fetchRunC_cancel]
    by_cases hpos : 0 < buf.length
    · exact ⟨scriptCookies script, by simp [flushOnCancel, hpos, batchCookies]⟩
    · exact ⟨cks ++ scriptCookies script, by simp [flushOnCancel, hpos, batchCookies]⟩
  | case3 c sched buf cks hc =>
    have hcf : c = false := by cases c <;> simp_all
    subst hcf
    exact ⟨cks ++ scriptCookies [], by simp [fetchRunC, batchCookies]⟩
  | case4 c sched buf cks hc e tail =>
    have hcf : c = false := by cases c <;> simp_all
    subst hcf
    exact ⟨cks, by simp [fetchRunC, batchCookies, scriptCookies]⟩
  | case5 c sched buf cks hc items cookie rest hz ih =>
    have hcf : c = false := by cases c <;> simp_all
    subst hcf
    have hitems : items = [] := List.length_eq_zero.mp hz
    subst hitems
    obtain ⟨t, ht⟩ := ih
    exact ⟨t, by simpa [fetchRunC_zero, scriptCookies] using ht⟩
  | case6 c sched buf cks hc items cookie rest hz hov ih =>
    have hcf : c = false := by cases c <;> simp_all
    subst hcf
    obtain ⟨t, ht⟩ := ih
    refine ⟨t, ?_⟩
    rw [fetchRunC_overflow m sched rest buf cks items cookie hz hov]
    simp only [batchCookies, List.append_assoc, ht, scriptCookies, hz, if_neg hz]
    simp
  | case7 c sched buf cks hc items cookie rest hz hov ih =>
    have hcf : c = false := by cases c <;> simp_all
    subst hcf
    obtain ⟨t, ht⟩ := ih
    refine ⟨t, ?_⟩
    rw [fetchRunC_appendStep m sched rest buf cks items cookie hz hov]
    rw [ht]
    simp [scriptCookies, hz]

/-! ### Invariants of the delivery goroutine -/

/-- Every `Process` call of the delivery goroutine passes one received
batch verbatim, so batch size bounds carry over to `Process` calls. -/
lemma deliveryRun_processOk (m : Nat) (pe : List Rec → Option Err) (ce : Int → Option Err) :
    ∀ bs : List Batch, (∀ b ∈ bs, b.items.length ≤ m) →
    processOk m (deliveryRun pe ce bs).1 = true := by
  intro bs
  induction bs using deliveryRun.induct pe ce with
  | case1 => intro _; rfl
  | case2 b bs e hpe =>
    intro h
    have hb := h b (List.mem_cons_self b bs)
    simp [deliveryRun, hpe, processOk, hb]
  | case3 b bs hpe c e hc =>
    intro h
    have hb := h b (List.mem_cons_self b bs)
    have hc2 : (commitRun ce b.cookies).2 = some e := hc
    have hcp := processOk_commitOnly m _ (commitRun_commitOnly ce b.cookies)
    simp [deliveryRun, hpe, hc2, processOk, hb, hcp]
  | case4 b bs hpe c hc ih =>
    intro h
    have hb := h b (List.mem_cons_self b bs)
    have hc2 : (commitRun ce b.cookies).2 = none := hc
    have hcp := processOk_commitOnly m _ (commitRun_commitOnly ce b.cookies)
    have ihr := ih fun x hx => h x (List.mem_cons_of_mem b hx)
    simp [deliveryRun, hpe, hc2, processOk, hb, processOk_append, hcp, ihr]

/-- Nonempty received batches give nonempty `Process` calls. -/
lemma deliveryRun_processNonempty (pe : List Rec → Option Err) (ce : Int → Option Err) :
    ∀ bs : List Batch, (∀ b ∈ bs, 0 < b.items.length) →
    processNonempty (deliveryRun pe ce bs).1 = true := by
  intro bs
  induction bs using deliveryRun.induct pe ce with
  | case1 => intro _; rfl
  | case2 b bs e hpe =>
    intro h
    have hb := h b (List.mem_cons_self b bs)
    simp [deliveryRun, hpe, processNonempty, hb]
  | case3 b bs hpe c e hc =>
    intro h
    have hb := h b (List.mem_cons_self b bs)
    have hc2 : (commitRun ce b.cookies).2 = some e := hc
    have hcp := processNonempty_commitOnly _ (commitRun_commitOnly ce b.cookies)
    simp [deliveryRun, hpe, hc2, processNonempty, hb, hcp]
  | case4 b bs hpe c hc ih =>
    intro h
    have hb := h b (List.mem_cons_self b bs)
    have hc2 : (commitRun ce b.cookies).2 = none := hc
    have hcp := processNonempty_commitOnly _ (commitRun_commitOnly ce b.cookies)
    have ihr := ih fun x hx => h x (List.mem_cons_of_mem b hx)
    simp [deliveryRun, hpe, hc2, processNonempty, hb, processNonempty_append, hcp, ihr]

/-- The cookies the delivery goroutine commits are an initial segment of
the flattened cookies of the received batches: committed in order, none
skipped before a later one, none duplicated. -/
lemma deliveryRun_commits_initSeg (pe : List Rec → Option Err) (ce : Int → Option Err) :
    ∀ bs : List Batch,
    ∃ t, commitsOf (deliveryRun pe ce bs).1 ++ t = batchCookies bs := by
  intro bs
  induction bs using deliveryRun.induct pe ce with
  | case1 => exact ⟨[], rfl⟩
  | case2 b bs e hpe =>
    exact ⟨b.cookies ++ batchCookies bs, by simp [deliveryRun, hpe, commitsOf, batchCookies]⟩
  | case3 b bs hpe c e hc =>
    have hc2 : (commitRun ce b.cookies).2 = some e := hc
    obtain ⟨t, ht⟩ := commitRun_initSeg ce b.cookies
    exact ⟨t ++ batchCookies bs, by
      simp [deliveryRun, hpe, hc2, commitsOf, batchCookies, ← List.append_assoc, ht]⟩
  | case4 b bs hpe c hc ih =>
    have hc2 : (commitRun ce b.cookies).2 = none := hc
    have hall := commitRun_none_commits ce b.cookies hc2
    obtain ⟨t, ht⟩ := ih
    refine ⟨t, ?_⟩
    simp [deliveryRun, hpe, hc2, commitsOf, commitsOf_append, hall, batchCookies, ht]

/-- When neither `Process` nor `Commit` ever fails, the delivery goroutine
commits exactly the flattened cookies of the received batches. -/
lemma deliveryRun_commits_exact (pe : List Rec → Option Err) (ce : Int → Option Err)
    (hpe : ∀ its, pe its = none) (hce : ∀ k, ce k = none) :
    ∀ bs : List Batch, commitsOf (deliveryRun pe ce bs).1 = batchCookies bs := by
  have hcr : ∀ ks, (commitRun ce ks).2 = none := by
    intro ks
    induction ks with
    | nil => rfl
    | cons k ks ih => simp [commitRun, hce k, ih]
  intro bs
  induction bs with
  | nil => rfl
  | cons b bs ih =>
    have hall := commitRun_none_commits ce b.cookies (hcr b.cookies)
    simp [deliveryRun, hpe b.items, hcr b.cookies, commitsOf, commitsOf_append, hall,
      batchCookies, ih]

/-- Every cookie the delivery goroutine commits is covered by the
successful `Process` call of its own batch, which the code issues first. -/
lemma deliveryRun_covered (pe : List Rec → Option Err) (ce : Int → Option Err) :
    ∀ (bs : List Batch) (acc : List Int),
    commitsCovered acc (deliveryRun pe ce bs).1 = true := by
  intro bs
  induction bs using deliveryRun.induct pe ce with
  | case1 => intro acc; rfl
  | case2 b bs e hpe => intro acc; simp [deliveryRun, hpe, commitsCovered]
  | case3 b bs hpe c e hc =>
    intro acc
    have hc2 : (commitRun ce b.cookies).2 = some e := hc
    have hcov := commitRun_covered ce b.cookies (acc ++ b.cookies)
      (fun k hk => by simp [hk])
    simp [deliveryRun, hpe, hc2, commitsCovered, hcov]
  | case4 b bs hpe c hc ih =>
    intro acc
    have hc2 : (commitRun ce b.cookies).2 = none := hc
    have hcov := commitRun_covered ce b.cookies (acc ++ b.cookies)
      (fun k hk => by simp [hk])
    have hsplit := commitsCovered_append_commitOnly (acc ++ b.cookies)
      (commitRun ce b.cookies).1 (deliveryRun pe ce bs).1 (commitRun_commitOnly ce b.cookies)
    simp [deliveryRun, hpe, hc2, commitsCovered, hsplit, hcov, ih]

/-- If a `Process` call fails, it is the last event of the delivery trace
(in particular no cookie of that batch is committed) and the delivery
goroutine reports exactly that error. -/
lemma deliveryRun_procFailStops (pe : List Rec → Option Err) (ce : Int → Option Err) :
    ∀ bs : List Batch,
    procFailStops (deliveryRun pe ce bs).2 (deliveryRun pe ce bs).1 = true := by
  intro bs
  induction bs using deliveryRun.induct pe ce with
  | case1 => rfl
  | case2 b bs e hpe => simp [deliveryRun, hpe, procFailStops]
  | case3 b bs hpe c e hc =>
    have hc2 : (commitRun ce b.cookies).2 = some e := hc
    have := procFailStops_commitOnly (some e) _ (commitRun_commitOnly ce b.cookies)
    simp [deliveryRun, hpe, hc2, procFailStops, this]
  | case4 b bs hpe c hc ih =>
    have hc2 : (commitRun ce b.cookies).2 = none := hc
    have hsplit := procFailStops_append_commitOnly (deliveryRun pe ce bs).2
      (commitRun ce b.cookies).1 (deliveryRun pe ce bs).1 (commitRun_commitOnly ce b.cookies)
    simp [deliveryRun, hpe, hc2, procFailStops, hsplit, ih]

/-! ### Invariants of the sequential Pipe of part_000 -/

/-- Under the source bound, starting within bound, every `Process` call of
the sequential `Pipe` passes at most `m` records. -/
lemma pipeSeq_processOk (m : Nat) (pe : List Rec → Option Err) (ce : Int → Option Err) :
    ∀ (script : List NextRes) (buf : List Rec) (cks : List Int),
    buf.length ≤ m → okBound m script = true →
    processOk m (pipeSeq m pe ce script buf cks).1 = true := by
  intro script buf cks
  induction script, buf, cks using pipeSeq.induct m pe ce with
  | case1 buf cks => intro _ _; rfl
  | case2 e tail buf cks => intro _ _; rfl
  | case3 items cookie rest buf cks hz hpos e hpe =>
    intro hb _
    simp [pipeSeq, hz, hpos, hpe, processOk, hb]
  | case4 items cookie rest buf cks hz hpos hpe =>
    intro hb _
    have hcp := processOk_commitOnly m _ (commitRun_commitOnly ce cks)
    simp [pipeSeq, hz, hpos, hpe, processOk, hb, hcp]
  | case5 items cookie rest buf cks hz hpos =>
    intro _ _
    simp [pipeSeq, hz, hpos, processOk]
  | case6 items cookie rest buf cks hz hov e hpe =>
    intro hb _
    simp [pipeSeq, hz, hov, hpe, processOk, hb]
  | case7 items cookie rest buf cks hz hov hpe c e hc =>
    intro hb _
    have hc2 : (commitRun ce cks).2 = some e := hc
    have hcp := processOk_commitOnly m _ (commitRun_commitOnly ce cks)
    simp [pipeSeq, hz, hov, hpe, hc2, processOk, hb, hcp]
  | case8 items cookie rest buf cks hz hov hpe c hc ih =>
    intro hb hs
    have hsi : items.length ≤ m ∧ okBound m rest = true := by
      simpa [okBound] using hs
    have hc2 : (commitRun ce cks).2 = none := hc
    have hcp := processOk_commitOnly m _ (commitRun_commitOnly ce cks)
    have ihr := ih hsi.1 hsi.2
    simp [pipeSeq, hz, hov, hpe, hc2, processOk, hb, processOk_append, hcp, ihr]
  | case9 items cookie rest buf cks hz hov hun ih =>
    intro hb hs
    have hsi : items.length ≤ m ∧ okBound m rest = true := by
      simpa [okBound] using hs
    have hlen : (buf ++ items).length ≤ m := by
      simp only [List.length_append]
      omega
    have ihr := ih hlen hsi.2
    simpa [pipeSeq, hz, hov, hun] using ihr
  | case10 items cookie rest buf cks hz hov hun e hpe =>
    intro hb _
    have hlen : buf.length + items.length ≤ m := by omega
    simp [pipeSeq, hz, hov, hun, hpe, processOk, hlen]
  | case11 items cookie rest buf cks hz hov hun hpe c e hc =>
    intro hb _
    have hlen : buf.length + items.length ≤ m := by omega
    have hc2 : (commitRun ce (cks ++ [cookie])).2 = some e := hc
    have hcp := processOk_commitOnly m _ (commitRun_commitOnly ce (cks ++ [cookie]))
    simp [pipeSeq, hz, hov, hun, hpe, hc2, processOk, hlen, hcp]
  | case12 items cookie rest buf cks hz hov hun hpe c hc ih =>
    intro hb hs
    have hsi : items.length ≤ m ∧ okBound m rest = true := by
      simpa [okBound] using hs
    have hlen : buf.length + items.length ≤ m := by omega
    have hc2 : (commitRun ce (cks ++ [cookie])).2 = none := hc
    have hcp := processOk_commitOnly m _ (commitRun_commitOnly ce (cks ++ [cookie]))
    have ihr := ih (by simp) hsi.2
    simp [pipeSeq, hz, hov, hun, hpe, hc2, processOk, hlen, processOk_append, hcp, ihr]

/-- Under the source bound, every `Process` call of the sequential `Pipe`
passes at least one record. -/
lemma pipeSeq_processNonempty (m : Nat) (pe : List Rec → Option Err) (ce : Int → Option Err) :
    ∀ (script : List NextRes) (buf : List Rec) (cks : List Int),
    okBound m script = true →
    processNonempty (pipeSeq m pe ce script buf cks).1 = true := by
  intro script buf cks
  induction script, buf, cks using pipeSeq.induct m pe ce with
  | case1 buf cks => intro _; rfl
  | case2 e tail buf cks => intro _; rfl
  | case3 items cookie rest buf cks hz hpos e hpe =>
    intro _
    simp [pipeSeq, hz, hpos, hpe, processNonempty]
  | case4 items cookie rest buf cks hz hpos hpe =>
    intro _
    have hcp := processNonempty_commitOnly _ (commitRun_commitOnly ce cks)
    simp [pipeSeq, hz, hpos, hpe, processNonempty, hcp]
  | case5 items cookie rest buf cks hz hpos =>
    intro _
    simp [pipeSeq, hz, hpos, processNonempty]
  | case6 items cookie rest buf cks hz hov e hpe =>
    intro hs
    have hsi : items.length ≤ m ∧ okBound m rest = true := by
      simpa [okBound] using hs
    have hpos : 0 < buf.length := by
      have h1 := hsi.1
      omega
    simp [pipeSeq, hz, hov, hpe, processNonempty, hpos]
  | case7 items cookie rest buf cks hz hov hpe c e hc =>
    intro hs
    have hsi : items.length ≤ m ∧ okBound m rest = true := by
      simpa [okBound] using hs
    have hpos : 0 < buf.length := by
      have h1 := hsi.1
      omega
    have hc2 : (commitRun ce cks).2 = some e := hc
    have hcp := processNonempty_commitOnly _ (commitRun_commitOnly ce cks)
    simp [pipeSeq, hz, hov, hpe, hc2, processNonempty, hpos, hcp]
  | case8 items cookie rest buf cks hz hov hpe c hc ih =>
    intro hs
    have hsi : items.length ≤ m ∧ okBound m rest = true := by
      simpa [okBound] using hs
    have hpos : 0 < buf.length := by
      have h1 := hsi.1
      omega
    have hc2 : (commitRun ce cks).2 = none := hc
    have hcp := processNonempty_commitOnly _ (commitRun_commitOnly ce cks)
    have ihr := ih hsi.2
    simp [pipeSeq, hz, hov, hpe, hc2, processNonempty, hpos, processNonempty_append, hcp, ihr]
  | case9 items cookie rest buf cks hz hov hun ih =>
    intro hs
    have hsi : items.length ≤ m ∧ okBound m rest = true := by
      simpa [okBound] using hs
    simpa [pipeSeq, hz, hov, hun] using ih hsi.2
  | case10 items cookie rest buf cks hz hov hun e hpe =>
    intro _
    have hpos : 0 < buf.length + items.length := by omega
    simp [pipeSeq, hz, hov, hun, hpe, processNonempty, hpos]
  | case11 items cookie rest buf cks hz hov hun hpe c e hc =>
    intro _
    have hpos : 0 < buf.length + items.length := by omega
    have hc2 : (commitRun ce (cks ++ [cookie])).2 = some e := hc
    have hcp := processNonempty_commitOnly _ (commitRun_commitOnly ce (cks ++ [cookie]))
    simp [pipeSeq, hz, hov, hun, hpe, hc2, processNonempty, hpos, hcp]
  | case12 items cookie rest buf cks hz hov hun hpe c hc ih =>
    intro hs
    have hsi : items.length ≤ m ∧ okBound m rest = true := by
      simpa [okBound] using hs
    have hpos : 0 < buf.length + items.length := by omega
    have hc2 : (commitRun ce (cks ++ [cookie])).2 = none := hc
    have hcp := processNonempty_commitOnly _ (commitRun_commitOnly ce (cks ++ [cookie]))
    have ihr := ih hsi.2
    simp [pipeSeq, hz, hov, hun, hpe, hc2, processNonempty, hpos, processNonempty_append,
      hcp, ihr]

/-- The cookies the sequential `Pipe` commits are an initial segment of the
pending cookies followed by the cookies of the nonzero-record fetches of
the script, in order. -/
lemma pipeSeq_commits_initSeg (m : Nat) (pe : List Rec → Option Err) (ce : Int → Option Err) :
    ∀ (script : List NextRes) (buf : List Rec) (cks : List Int),
    ∃ t, commitsOf (pipeSeq m pe ce script buf cks).1 ++ t = cks ++ scriptCookies script := by
  intro script buf cks
  induction script, buf, cks using pipeSeq.induct m pe ce with
  | case1 buf cks => exact ⟨cks, by simp [pipeSeq, commitsOf, scriptCookies]⟩
  | case2 e tail buf cks => exact ⟨cks, by simp [pipeSeq, commitsOf, scriptCookies]⟩
  | case3 items cookie rest buf cks hz hpos e hpe =>
    exact ⟨cks ++ scriptCookies rest, by simp [pipeSeq, hz, hpos, hpe, commitsOf, scriptCookies]⟩
  | case4 items cookie rest buf cks hz hpos hpe =>
    obtain ⟨t0, ht0⟩ := commitRun_initSeg ce cks
    exact ⟨t0 ++ scriptCookies rest, by
      simp [pipeSeq, hz, hpos, hpe, commitsOf, scriptCookies, ← List.append_assoc, ht0]⟩
  | case5 items cookie rest buf cks hz hpos =>
    exact ⟨cks ++ scriptCookies rest, by simp [pipeSeq, hz, hpos, commitsOf, scriptCookies]⟩
  | case6 items cookie rest buf cks hz hov e hpe =>
    exact ⟨cks ++ scriptCookies (.ok items cookie :: rest), by
      simp [pipeSeq, hz, hov, hpe, commitsOf]⟩
  | case7 items cookie rest buf cks hz hov hpe c e hc =>
    have hc2 : (commitRun ce cks).2 = some e := hc
    obtain ⟨t0, ht0⟩ := commitRun_initSeg ce cks
    exact ⟨t0 ++ scriptCookies (.ok items cookie :: rest), by
      simp [pipeSeq, hz, hov, hpe, hc2, commitsOf, ← List.append_assoc, ht0]⟩
  | case8 items cookie rest buf cks hz hov hpe c hc ih =>
    have hc2 : (commitRun ce cks).2 = none := hc
    have hall := commitRun_none_commits ce cks hc2
    obtain ⟨t, ht⟩ := ih
    refine ⟨t, ?_⟩
    simp [pipeSeq, hz, hov, hpe, hc2, commitsOf, commitsOf_append, hall, scriptCookies,
      List.append_assoc, ht]
  | case9 items cookie rest buf cks hz hov hun ih =>
    obtain ⟨t, ht⟩ := ih
    refine ⟨t, ?_⟩
    rw [show pipeSeq m pe ce (.ok items cookie :: rest) buf cks
        = pipeSeq m pe ce rest (buf ++ items) (cks ++ [cookie]) by
      simp [pipeSeq, hz, hov, hun]]
    rw [ht]
    simp [scriptCookies, hz]
  | case10 items cookie rest buf cks hz hov hun e hpe =>
    exact ⟨cks ++ scriptCookies (.ok items cookie :: rest), by
      simp [pipeSeq, hz, hov, hun, hpe, commitsOf]⟩
  | case11 items cookie rest buf cks hz hov hun hpe c e hc =>
    have hc2 : (commitRun ce (cks ++ [cookie])).2 = some e := hc
    obtain ⟨t0, ht0⟩ := commitRun_initSeg ce (cks ++ [cookie])
    refine ⟨t0 ++ scriptCookies rest, ?_⟩
    simp [pipeSeq, hz, hov, hun, hpe, hc2, commitsOf, ← List.append_assoc, ht0, scriptCookies]
    simp [List.append_assoc]
  | case12 items cookie rest buf cks hz hov hun hpe c hc ih =>
    have hc2 : (commitRun ce (cks ++ [cookie])).2 = none := hc
    have hall := commitRun_none_commits ce (cks ++ [cookie]) hc2
    obtain ⟨t, ht⟩ := ih
    refine ⟨t, ?_⟩
    simp [pipeSeq, hz, hov, hun, hpe, hc2, commitsOf, commitsOf_append, hall, scriptCookies,
      List.append_assoc, ht]

/-- Every cookie the sequential `Pipe` commits was covered by the
successful `Process` call issued just before, for any starting coverage. -/
lemma pipeSeq_covered (m : Nat) (pe : List Rec → Option Err) (ce : Int → Option Err) :
    ∀ (script : List NextRes) (buf : List Rec) (cks : List Int) (acc : List Int),
    commitsCovered acc (pipeSeq m pe ce script buf cks).1 = true := by
  intro script buf cks
  induction script, buf, cks using pipeSeq.induct m pe ce with
  | case1 buf cks => intro acc; rfl
  | case2 e tail buf cks => intro acc; rfl
  | case3 items cookie rest buf cks hz hpos e hpe =>
    intro acc
    simp [pipeSeq, hz, hpos, hpe, commitsCovered]
  | case4 items cookie rest buf cks hz hpos hpe =>
    intro acc
    have hcov := commitRun_covered ce cks (acc ++ cks) (fun k hk => by simp [hk])
    simp [pipeSeq, hz, hpos, hpe, commitsCovered, hcov]
  | case5 items cookie rest buf cks hz hpos =>
    intro acc
    simp [pipeSeq, hz, hpos, commitsCovered]
  | case6 items cookie rest buf cks hz hov e hpe =>
    intro acc
    simp [pipeSeq, hz, hov, hpe, commitsCovered]
  | case7 items cookie rest buf cks hz hov hpe c e hc =>
    intro acc
    have hc2 : (commitRun ce cks).2 = some e := hc
    have hcov := commitRun_covered ce cks (acc ++ cks) (fun k hk => by simp [hk])
    simp [pipeSeq, hz, hov, hpe, hc2, commitsCovered, hcov]
  | case8 items cookie rest buf cks hz hov hpe c hc ih =>
    intro acc
    have hc2 : (commitRun ce cks).2 = none := hc
    have hcov := commitRun_covered ce cks (acc ++ cks) (fun k hk => by simp [hk])
    have hsplit := commitsCovered_append_commitOnly (acc ++ cks)
      (commitRun ce cks).1 (pipeSeq m pe ce rest items [cookie]).1
      (commitRun_commitOnly ce cks)
    simp [pipeSeq, hz, hov, hpe, hc2, commitsCovered, hsplit, hcov, ih]
  | case9 items cookie rest buf cks hz hov hun ih =>
    intro acc
    simpa [pipeSeq, hz, hov, hun] using ih acc
  | case10 items cookie rest buf cks hz hov hun e hpe =>
    intro acc
    simp [pipeSeq, hz, hov, hun, hpe, commitsCovered]
  | case11 items cookie rest buf cks hz hov hun hpe c e hc =>
    intro acc
    have hc2 : (commitRun ce (cks ++ [cookie])).2 = some e := hc
    have hcov := commitRun_covered ce (cks ++ [cookie]) (acc ++ (cks ++ [cookie]))
      (fun k hk => by simp [hk])
    simp [pipeSeq, hz, hov, hun, hpe, hc2, commitsCovered, hcov]
  | case12 items cookie rest buf cks hz hov hun hpe c hc ih =>
    intro acc
    have hc2 : (commitRun ce (cks ++ [cookie])).2 = none := hc
    have hcov := commitRun_covered ce (cks ++ [cookie]) (acc ++ (cks ++ [cookie]))
      (fun k hk => by simp [hk])
    have hsplit := commitsCovered_append_commitOnly (acc ++ (cks ++ [cookie]))
      (commitRun ce (cks ++ [cookie])).1 (pipeSeq m pe ce rest [] []).1
      (commitRun_commitOnly ce (cks ++ [cookie]))
    simp [pipeSeq, hz, hov, hun, hpe, hc2, commitsCovered, hsplit, hcov, ih]

/-- If a `Process` call of the sequential `Pipe` fails, it is the last
event of the trace and `Pipe` returns exactly that error. -/
lemma pipeSeq_procFailStops (m : Nat) (pe : List Rec → Option Err) (ce : Int → Option Err) :
    ∀ (script : List NextRes) (buf : List Rec) (cks : List Int),
    procFailStops (resOf (pipeSeq m pe ce script buf cks).2)
      (pipeSeq m pe ce script buf cks).1 = true := by
  intro script buf cks
  induction script, buf, cks using pipeSeq.induct m pe ce with
  | case1 buf cks => rfl
  | case2 e tail buf cks => rfl
  | case3 items cookie rest buf cks hz hpos e hpe =>
    simp [pipeSeq, hz, hpos, hpe, procFailStops, resOf]
  | case4 items cookie rest buf cks hz hpos hpe =>
    have := procFailStops_commitOnly (resOf (.finished (commitRun ce cks).2)) _
      (commitRun_commitOnly ce cks)
    simp [pipeSeq, hz, hpos, hpe, procFailStops, this]
  | case5 items cookie rest buf cks hz hpos =>
    simp [pipeSeq, hz, hpos, procFailStops]
  | case6 items cookie rest buf cks hz hov e hpe =>
    simp [pipeSeq, hz, hov, hpe, procFailStops, resOf]
  | case7 items cookie rest buf cks hz hov hpe c e hc =>
    have hc2 : (commitRun ce cks).2 = some e := hc
    have := procFailStops_commitOnly (some e) _ (commitRun_commitOnly ce cks)
    simp [pipeSeq, hz, hov, hpe, hc2, procFailStops, resOf, this]
  | case8 items cookie rest buf cks hz hov hpe c hc ih =>
    have hc2 : (commitRun ce cks).2 = none := hc
    have hsplit := procFailStops_append_commitOnly
      (resOf (pipeSeq m pe ce rest items [cookie]).2)
      (commitRun ce cks).1 (pipeSeq m pe ce rest items [cookie]).1
      (commitRun_commitOnly ce cks)
    simp [pipeSeq, hz, hov, hpe, hc2, procFailStops, hsplit, ih]
  | case9 items cookie rest buf cks hz hov hun ih =>
    simpa [pipeSeq, hz, hov, hun] using ih
  | case10 items cookie rest buf cks hz hov hun e hpe =>
    simp [pipeSeq, hz, hov, hun, hpe, procFailStops, resOf]
  | case11 items cookie rest buf cks hz hov hun hpe c e hc =>
    have hc2 : (commitRun ce (cks ++ [cookie])).2 = some e := hc
    have := procFailStops_commitOnly (some e) _ (commitRun_commitOnly ce (cks ++ [cookie]))
    simp [pipeSeq, hz, hov, hun, hpe, hc2, procFailStops, resOf, this]
  | case12 items cookie rest buf cks hz hov hun hpe c hc ih =>
    have hc2 : (commitRun ce (cks ++ [cookie])).2 = none := hc
    have hsplit := procFailStops_append_commitOnly
      (resOf (pipeSeq m pe ce rest [] []).2)
      (commitRun ce (cks ++ [cookie])).1 (pipeSeq m pe ce rest [] []).1
      (commitRun_commitOnly ce (cks ++ [cookie]))
    simp [pipeSeq, hz, hov, hun, hpe, hc2, procFailStops, hsplit, ih]

/-! ### Initial-segment bookkeeping and the error slot -/

lemma initSeg_trans (xs ys zs : List Int) (h1 : IsInitSeg xs ys) (h2 : IsInitSeg ys zs) :
    IsInitSeg xs zs := by
  obtain ⟨t1, ht1⟩ := h1
  obtain ⟨t2, ht2⟩ := h2
  exact ⟨t1 ++ t2, by rw [← List.append_assoc, ht1, ht2]⟩

lemma batchCookies_take_initSeg (bs : List Batch) (k : Nat) :
    IsInitSeg (batchCookies (bs.take k)) (batchCookies bs) := by
  refine ⟨batchCookies (bs.drop k), ?_⟩
  rw [← batchCookies_append, List.take_append_drop]

lemma foldl_reportFailure_some (rs : List Err) (e : Err) :
    rs.foldl reportFailure (some e) = some e := by
  induction rs with
  | nil => rfl
  | cons r rs ih => simpa [reportFailure] using ih

/-! ### Claim theorems -/

/-- C4: size bound.  Under the precondition that every `Next` call returns
at most `m` records: every `Process` call of the main.go pipeline (the
delivery goroutine run on any prefix of the batches the fetch goroutine
sealed, for any cancellation schedule) receives at most `m` records; every
sealed batch holds at most `m` records; the accumulator buffer never
exceeds `m` at any point of the run (any truncation point shows a buffer
within bound); and every `Process` call of the sequential `Pipe` of
part_000 receives at most `m` records. -/
theorem c4_size_bound (m : Nat) (pe : List Rec → Option Err) (ce : Int → Option Err)
    (sched : List Bool) (script : List NextRes) (k : Nat)
    (hs : okBound m script = true) :
    processOk m (deliveryRun pe ce ((fetchRunC m sched script [] []).1.take k)).1 = true
    ∧ (∀ b ∈ (fetchRunC m sched script [] []).1, b.items.length ≤ m)
    ∧ (∀ buf' cks',
        ((fetchRunC m sched script [] []).2 = .outOfSched buf' cks'
          ∨ (fetchRunC m sched script [] []).2 = .outOfScript buf' cks') →
        buf'.length ≤ m)
    ∧ processOk m (pipeSeq m pe ce script [] []).1 = true := by
  have hinv := fetchRunC_inv m sched script [] [] (by simp) hs
  refine ⟨?_, fun b hb => (hinv.1 b hb).2, hinv.2,
    pipeSeq_processOk m pe ce script [] [] (by simp) hs⟩
  exact deliveryRun_processOk m pe ce _
    (fun b hb => (hinv.1 b (List.take_subset k _ hb)).2)

/-- C4 witness at a concrete run. -/
theorem c4_witness :
    okBound 10000 [NextRes.ok [0] 1] = true
    ∧ processOk 10000 (pipeSeq 10000 peOk ceOk [NextRes.ok [0] 1] [] []).1 = true :=
  ⟨by decide, (c4_size_bound 10000 peOk ceOk [false] [NextRes.ok [0] 1] 0 (by decide)).2.2.2⟩

/-- C5: commit ordering.  For any cancellation schedule and any prefix of
the sealed batches the delivery goroutine got to handle, the cookies
passed to `Commit` are an initial segment of the cookies the nonzero
fetches of the script returned, in order — none skipped, duplicated or
reordered; likewise for the sequential `Pipe`; and when no `Process` or
`Commit` call fails the delivery goroutine commits exactly the flattened
cookie sequence of the delivered batches. -/
theorem c5_commit_order (m : Nat) (pe : List Rec → Option Err) (ce : Int → Option Err)
    (sched : List Bool) (script : List NextRes) (k : Nat) :
    IsInitSeg (commitsOf (deliveryRun pe ce ((fetchRunC m sched script [] []).1.take k)).1)
      (scriptCookies script)
    ∧ IsInitSeg (commitsOf (pipeSeq m pe ce script [] []).1) (scriptCookies script)
    ∧ ((∀ its, pe its = none) → (∀ kk, ce kk = none) →
        ∀ bs : List Batch, commitsOf (deliveryRun pe ce bs).1 = batchCookies bs) := by
  refine ⟨?_, ?_, fun hpe hce bs => deliveryRun_commits_exact pe ce hpe hce bs⟩
  · have h1 := deliveryRun_commits_initSeg pe ce ((fetchRunC m sched script [] []).1.take k)
    have h2 := batchCookies_take_initSeg (fetchRunC m sched script [] []).1 k
    have h3 : IsInitSeg (batchCookies (fetchRunC m sched script [] []).1)
        (scriptCookies script) := by
      obtain ⟨t, ht⟩ := fetchRunC_cookies m sched script [] []
      exact ⟨t, by simpa using ht⟩
    exact initSeg_trans _ _ _ h1 (initSeg_trans _ _ _ h2 h3)
  · obtain ⟨t, ht⟩ := pipeSeq_commits_initSeg m pe ce script [] []
    exact ⟨t, by simpa using ht⟩

/-- C5 witness at a concrete run. -/
theorem c5_witness :
    commitsOf (deliveryRun peOk ceOk [⟨[0], [5]⟩]).1 = batchCookies [⟨[0], [5]⟩] :=
  (c5_commit_order 10000 peOk ceOk [] [] 0).2.2 (fun _ => rfl) (fun _ => rfl) [⟨[0], [5]⟩]

/-- C6: no premature commit.  In both implementations every cookie passed
to `Commit` is covered by an earlier successful `Process` call on the
batch containing it (checked against the ghost cookies of the process
events), and a failed `Process` call is the last event of the trace — in
particular none of that batch's cookies are committed — with the run
reporting exactly that process error. -/
theorem c6_no_premature_commit (m : Nat) (pe : List Rec → Option Err)
    (ce : Int → Option Err) (script : List NextRes) (bs : List Batch) :
    commitsCovered [] (deliveryRun pe ce bs).1 = true
    ∧ procFailStops (deliveryRun pe ce bs).2 (deliveryRun pe ce bs).1 = true
    ∧ commitsCovered [] (pipeSeq m pe ce script [] []).1 = true
    ∧ procFailStops (resOf (pipeSeq m pe ce script [] []).2)
        (pipeSeq m pe ce script [] []).1 = true :=
  ⟨deliveryRun_covered pe ce bs [], deliveryRun_procFailStops pe ce bs,
    pipeSeq_covered m pe ce script [] [] [], pipeSeq_procFailStops m pe ce script [] []⟩

/-- C7: first error wins.  The `sync.Once`-guarded slot of main.go stores
the first reported failure: a report into the empty slot stores it, a
report into an occupied slot is discarded, and folding any sequence of
reports over the initially empty slot — the value `Pipe` returns — yields
exactly the first report, or no error when there is none. -/
theorem c7_first_error_wins :
    (∀ e : Err, reportFailure none e = some e)
    ∧ (∀ (slot : Option Err) (e : Err), ¬slot = none → reportFailure slot e = slot)
    ∧ (∀ reports : List Err, runErrSlot reports = reports.head?) := by
  refine ⟨fun e => rfl, ?_, ?_⟩
  · intro slot e h
    cases slot with
    | none => exact absurd rfl h
    | some x => rfl
  · intro reports
    cases reports with
    | nil => rfl
    | cons r rs => simpa [runErrSlot, reportFailure] using foldl_reportFailure_some rs r

/-- C7 witness: a second failure is discarded. -/
theorem c7_witness :
    ¬(some "boom" : Option Err) = none
    ∧ reportFailure (some "boom") "later" = some "boom" :=
  ⟨by decide, c7_first_error_wins.2.1 (some "boom") "later" (by decide)⟩

/-- C10: no empty batches.  Under the precondition that every `Next` call
returns at most `m` records, every batch the fetch goroutine seals is
nonempty, every `Process` call of the delivery goroutine (on any prefix
of those batches, any schedule) gets at least one record, and likewise
every `Process` call of the sequential `Pipe`. -/
theorem c10_no_empty_batches (m : Nat) (pe : List Rec → Option Err) (ce : Int → Option Err)
    (sched : List Bool) (script : List NextRes) (k : Nat)
    (hs : okBound m script = true) :
    processNonempty (deliveryRun pe ce ((fetchRunC m sched script [] []).1.take k)).1 = true
    ∧ (∀ b ∈ (fetchRunC m sched script [] []).1, 0 < b.items.length)
    ∧ processNonempty (pipeSeq m pe ce script [] []).1 = true := by
  have hinv := fetchRunC_inv m sched script [] [] (by simp) hs
  refine ⟨?_, fun b hb => (hinv.1 b hb).1, pipeSeq_processNonempty m pe ce script [] [] hs⟩
  exact deliveryRun_processNonempty pe ce _
    (fun b hb => (hinv.1 b (List.take_subset k _ hb)).1)

/-- C10 witness at a concrete run. -/
theorem c10_witness :
    okBound 10000 [NextRes.ok [0] 1, NextRes.ok [] 2] = true
    ∧ processNonempty (pipeSeq 10000 peOk ceOk [NextRes.ok [0] 1, NextRes.ok [] 2] [] []).1
        = true :=
  ⟨by decide,
    (c10_no_empty_batches 10000 peOk ceOk [false] [NextRes.ok [0] 1, NextRes.ok [] 2] 0
      (by decide)).2.2⟩

/-- C8: overflow seals without splitting.  When the buffered records plus
the incoming records would exceed `m`, both implementations seal and
deliver exactly the currently buffered records with their cookies as one
batch, and the entire incoming fetch starts the next buffer — incoming
records are never split.  On the concrete four-times-3000 script with
`MaxItems = 10000`, the single sealed batch is the first three fetches
(9000 records, cookies 1, 2, 3) and the fourth fetch's 3000 records with
cookie 4 begin the new buffer. -/
theorem c8_overflow_no_split :
    (∀ (m : Nat) (sched : List Bool) (rest : List NextRes) (buf : List Rec)
        (cks : List Int) (items : List Rec) (k : Int),
        ¬items.length = 0 → (m : Int) - buf.length < items.length →
        fetchRunC m (false :: sched) (.ok items k :: rest) buf cks
          = (⟨buf, cks⟩ :: (fetchRunC m sched rest items [k]).1,
              (fetchRunC m sched rest items [k]).2))
    ∧ (∀ (m : Nat) (pe : List Rec → Option Err) (ce : Int → Option Err)
        (rest : List NextRes) (buf : List Rec) (cks : List Int) (items : List Rec) (k : Int),
        ¬items.length = 0 → (m : Int) - buf.length < items.length →
        pe buf = none → (commitRun ce cks).2 = none →
        pipeSeq m pe ce (.ok items k :: rest) buf cks
          = (.processCall buf cks none ::
              ((commitRun ce cks).1 ++ (pipeSeq m pe ce rest items [k]).1),
              (pipeSeq m pe ce rest items [k]).2))
    ∧ fetchRunC 10000 [false, false, false, false] ex3000 [] []
        = ([⟨(List.replicate 3000 0 ++ List.replicate 3000 0) ++ List.replicate 3000 0,
            [1, 2, 3]⟩], .outOfSched (List.replicate 3000 0) [4])
    ∧ ((List.replicate 3000 (0 : Rec) ++ List.replicate 3000 0)
        ++ List.replicate 3000 0).length = 9000 := by
  refine ⟨fetchRunC_overflow, ?_, ?_,
    by simp only [List.length_append, List.length_replicate]⟩
  · intro m pe ce rest buf cks items k hz hov hpe hcr
    simp [pipeSeq, hz, hov, hpe, hcr]
  · rw [show ex3000
        = .ok (List.replicate 3000 0) 1 :: [.ok (List.replicate 3000 0) 2,
            .ok (List.replicate 3000 0) 3, .ok (List.replicate 3000 0) 4] from rfl]
    rw [fetchRunC_appendStep _ _ _ _ _ _ _ (by norm_num) (by norm_num)]
    simp only [List.nil_append]
    rw [fetchRunC_appendStep _ _ _ _ _ _ _ (by norm_num) (by norm_num)]
    simp only [List.singleton_append]
    rw [fetchRunC_appendStep _ _ _ _ _ _ _ (by norm_num) (by norm_num)]
    simp only [List.cons_append, List.singleton_append]
    rw [fetchRunC_overflow _ _ _ _ _ _ _ (by norm_num) (by norm_num)]
    rfl

/-- C8 witness for the hypotheses of the general conjuncts. -/
theorem c8_witness :
    ¬([0, 0] : List Rec).length = 0
    ∧ ((2 : Nat) : Int) - ([0] : List Rec).length < ([0, 0] : List Rec).length
    ∧ fetchRunC 2 [false] [.ok [0, 0] 9] [0] [4]
        = (⟨[0], [4]⟩ :: (fetchRunC 2 [] [] [0, 0] [9]).1, (fetchRunC 2 [] [] [0, 0] [9]).2) :=
  ⟨by decide, by decide,
    c8_overflow_no_split.1 2 [] [] [0] [4] [0, 0] 9 (by decide) (by decide)⟩

/-- C1 counterexample: in main.go an exact fit is NOT sealed in the same
iteration.  With `MaxItems = 10000`, fetches of 7000 then 3000 records
land the buffer on exactly 10000, yet after both iterations the fetch
goroutine has sent no batch at all — the full buffer is still pending
(held until a later fetch overflows), contradicting the claim that it is
sealed and delivered to `Process` in that same iteration. -/
theorem c1_counterexample :
    (fetchRunC 10000 [false, false]
        [.ok (List.replicate 7000 0) 1, .ok (List.replicate 3000 0) 2] [] []).1 = []
    ∧ (fetchRunC 10000 [false, false]
        [.ok (List.replicate 7000 0) 1, .ok (List.replicate 3000 0) 2] [] []).2
        = .outOfSched (List.replicate 7000 0 ++ List.replicate 3000 0) [1, 2]
    ∧ (List.replicate 7000 (0 : Rec) ++ List.replicate 3000 0).length = 10000 := by
  have h : fetchRunC 10000 [false, false]
      [.ok (List.replicate 7000 0) 1, .ok (List.replicate 3000 0) 2] [] []
      = ([], .outOfSched (List.replicate 7000 0 ++ List.replicate 3000 0) [1, 2]) := by
    rw [fetchRunC_appendStep _ _ _ _ _ _ _ (by norm_num) (by norm_num)]
    simp only [List.nil_append]
    rw [fetchRunC_appendStep _ _ _ _ _ _ _ (by norm_num) (by norm_num)]
    simp only [List.singleton_append]
    rfl
  exact ⟨by rw [h], by rw [h],
    by simp only [List.length_append, List.length_replicate]⟩

/-- C1 amended: an exact fit is sealed in the same iteration only in the
sequential part_000 `Pipe`; in main.go the exact-fit append is buffered
without sealing, and the now-full buffer of exactly `m` records is sealed
and delivered at the next fetch that returns a nonzero number of records
(the overflow test fires because remaining capacity is zero). -/
theorem c1_amended :
    (∀ (m : Nat) (sched : List Bool) (script : List NextRes) (buf : List Rec)
        (cks : List Int) (items : List Rec) (k : Int),
        ¬items.length = 0 → buf.length + items.length = m →
        fetchRunC m (false :: sched) (.ok items k :: script) buf cks
          = fetchRunC m sched script (buf ++ items) (cks ++ [k]))
    ∧ (∀ (m : Nat) (sched : List Bool) (script : List NextRes) (buf : List Rec)
        (cks : List Int) (items : List Rec) (k : Int),
        ¬items.length = 0 → buf.length = m →
        fetchRunC m (false :: sched) (.ok items k :: script) buf cks
          = (⟨buf, cks⟩ :: (fetchRunC m sched script items [k]).1,
              (fetchRunC m sched script items [k]).2))
    ∧ (∀ (m : Nat) (pe : List Rec → Option Err) (ce : Int → Option Err)
        (rest : List NextRes) (buf : List Rec) (cks : List Int) (items : List Rec) (k : Int),
        ¬items.length = 0 → buf.length + items.length = m →
        (pipeSeq m pe ce (.ok items k :: rest) buf cks).1.head?
          = some (.processCall (buf ++ items) (cks ++ [k]) (pe (buf ++ items)))) := by
  refine ⟨?_, ?_, ?_⟩
  · intro m sched script buf cks items k hz hfit
    exact fetchRunC_appendStep m sched script buf cks items k hz (by omega)
  · intro m sched script buf cks items k hz hfull
    exact fetchRunC_overflow m sched script buf cks items k hz (by omega)
  · intro m pe ce rest buf cks items k hz hfit
    have hov : ¬(m : Int) - buf.length < items.length := by omega
    have hun : ¬(m : Int) - buf.length > items.length := by omega
    cases hpe : pe (buf ++ items) with
    | some e => simp [pipeSeq, hz, hov, hun, hpe]
    | none =>
      cases hc : (commitRun ce (cks ++ [k])).2 with
      | some e => simp [pipeSeq, hz, hov, hun, hpe, hc]
      | none => simp [pipeSeq, hz, hov, hun, hpe, hc]

/-- C1 witness for the exact-fit hypotheses, at the claim's own scale
`MaxItems = 10`: 7 buffered records plus an incoming 3. -/
theorem c1_witness :
    ¬(List.replicate 3 (0 : Rec)).length = 0
    ∧ (List.replicate 7 (0 : Rec)).length + (List.replicate 3 (0 : Rec)).length = 10
    ∧ fetchRunC 10 [false] [.ok (List.replicate 3 0) 2] (List.replicate 7 0) [1]
        = fetchRunC 10 [] [] (List.replicate 7 0 ++ List.replicate 3 0) ([1] ++ [2]) :=
  ⟨by decide, by decide,
    c1_amended.1 10 [] [] (List.replicate 7 0) [1] (List.replicate 3 0) 2
      (by decide) (by decide)⟩

/-- C2 counterexample: main.go flushes on cancellation.  A run where the
fetch goroutine buffers one record and then observes cancellation (raised
by a concurrent failure in the delivery stage) DOES place a batch built
from the unsealed buffer on the queue — the same run without the
cancellation seals nothing. -/
theorem c2_counterexample :
    fetchRunC 10000 [false, true] [.ok [0] 1] [] [] = ([⟨[0], [1]⟩], .cancelled)
    ∧ (fetchRunC 10000 [false, false] [.ok [0] 1] [] []).1 = [] := by decide

/-- C2 amended: when the fetch goroutine of main.go observes cancellation
after `n` normal iterations, it appends to the batches sealed so far
exactly the flush of its unsealed state — one batch holding the whole
buffer and its pending cookies when the buffer is nonempty, nothing when
it is empty — and exits. -/
theorem c2_amended (m : Nat) : ∀ (n : Nat) (script : List NextRes) (buf : List Rec)
    (cks : List Int) (bs : List Batch) (buf2 : List Rec) (cks2 : List Int)
    (sched2 : List Bool),
    fetchRunC m (List.replicate n false) script buf cks = (bs, .outOfSched buf2 cks2) →
    fetchRunC m (List.replicate n false ++ true :: sched2) script buf cks
      = (bs ++ flushOnCancel buf2 cks2, .cancelled) := by
  intro n
  induction n with
  | zero =>
    intro script buf cks bs buf2 cks2 sched2 h
    simp [fetchRunC] at h
    obtain ⟨h1, h2, h3⟩ := h
    subst h1
    subst h2
    subst h3
    simp [fetchRunC_cancel]
  | succ n ih =>
    intro script buf cks bs buf2 cks2 sched2 h
    rw [List.replicate_succ] at h ⊢
    rw [List.cons_append]
    cases script with
    | nil => simp [fetchRunC] at h
    | cons r rest =>
      cases r with
      | fail e => simp [fetchRunC] at h
      | ok items k =>
        by_cases hz : items.length = 0
        · have hnil : items = [] := List.length_eq_zero.mp hz
          subst hnil
          rw [fetchRunC_zero] at h
          rw [fetchRunC_zero]
          exact ih rest buf cks bs buf2 cks2 sched2 h
        · by_cases hov : (m : Int) - buf.length < items.length
          · rw [fetchRunC_overflow _ _ _ _ _ _ _ hz hov] at h
            rw [fetchRunC_overflow _ _ _ _ _ _ _ hz hov]
            have h1 : ⟨buf, cks⟩ :: (fetchRunC m (List.replicate n false) rest items [k]).1
                = bs := (Prod.mk.injEq _ _ _ _ ▸ h).1
            have h2 : (fetchRunC m (List.replicate n false) rest items [k]).2
                = .outOfSched buf2 cks2 := (Prod.mk.injEq _ _ _ _ ▸ h).2
            have hX : fetchRunC m (List.replicate n false) rest items [k]
                = ((fetchRunC m (List.replicate n false) rest items [k]).1,
                    .outOfSched buf2 cks2) := by
              rw [← h2]
            have hc := ih rest items [k] _ buf2 cks2 sched2 hX
            rw [hc, ← h1]
            simp
          · rw [fetchRunC_appendStep _ _ _ _ _ _ _ hz hov] at h
            rw [fetchRunC_appendStep _ _ _ _ _ _ _ hz hov]
            exact ih rest (buf ++ items) (cks ++ [k]) bs buf2 cks2 sched2 h

/-- C2 witness: one normal iteration buffering a record, then a cancelled
iteration, flushing that record as a batch. -/
theorem c2_witness :
    fetchRunC 10000 (List.replicate 1 false) [.ok [0] 1] [] []
      = ([], .outOfSched [0] [1])
    ∧ fetchRunC 10000 (List.replicate 1 false ++ true :: []) [.ok [0] 1] [] []
      = ([] ++ flushOnCancel [0] [1], .cancelled) :=
  ⟨by decide, c2_amended 10000 1 [.ok [0] 1] [] [] [] [0] [1] [] (by decide)⟩

/-- C3 counterexample: in the sequential part_000 `Pipe` a zero-record
fetch is end-of-stream, not a poll.  After buffering one record, a
zero-record fetch makes the run flush the buffer to `Process`, commit its
cookie, and terminate with success — the third script entry is never
fetched — contradicting the claim that the loop keeps polling and neither
flushes, commits, nor terminates. -/
theorem c3_counterexample :
    pipeSeq 10000 peOk ceOk [.ok [0] 1, .ok [] 0, .ok [5] 2] [] []
      = ([.processCall [0] [1] none, .commitCall 1 none], .finished none) := by decide

/-- C3 amended: only the main.go fetch goroutine treats a zero-record
fetch as "no data yet" and polls again with its state unchanged (dropping
that fetch's cookie); the sequential part_000 `Pipe` treats it as
end-of-stream: with a nonempty buffer it processes the buffer, commits
the pending cookies and returns (success if nothing fails), and with an
empty buffer it returns success immediately. -/
theorem c3_amended :
    (∀ (m : Nat) (sched : List Bool) (rest : List NextRes) (buf : List Rec)
        (cks : List Int) (k : Int),
        fetchRunC m (false :: sched) (.ok [] k :: rest) buf cks
          = fetchRunC m sched rest buf cks)
    ∧ (∀ (m : Nat) (pe : List Rec → Option Err) (ce : Int → Option Err)
        (rest : List NextRes) (buf : List Rec) (cks : List Int) (k : Int) (e : Err),
        0 < buf.length → pe buf = some e →
        pipeSeq m pe ce (.ok [] k :: rest) buf cks
          = ([.processCall buf cks (some e)], .finished (some e)))
    ∧ (∀ (m : Nat) (pe : List Rec → Option Err) (ce : Int → Option Err)
        (rest : List NextRes) (buf : List Rec) (cks : List Int) (k : Int),
        0 < buf.length → pe buf = none →
        pipeSeq m pe ce (.ok [] k :: rest) buf cks
          = (.processCall buf cks none :: (commitRun ce cks).1,
              .finished (commitRun ce cks).2))
    ∧ (∀ (m : Nat) (pe : List Rec → Option Err) (ce : Int → Option Err)
        (rest : List NextRes) (buf : List Rec) (cks : List Int) (k : Int),
        ¬0 < buf.length →
        pipeSeq m pe ce (.ok [] k :: rest) buf cks = ([], .finished none)) := by
  refine ⟨fun m sched rest buf cks k => fetchRunC_zero m sched rest buf cks k, ?_, ?_, ?_⟩
  · intro m pe ce rest buf cks k e hpos hpe
    simp [pipeSeq, hpos, hpe]
  · intro m pe ce rest buf cks k hpos hpe
    simp [pipeSeq, hpos, hpe]
  · intro m pe ce rest buf cks k hpos
    simp [pipeSeq, hpos]

/-- C3 witness: the zero-record flush at a concrete nonempty buffer. -/
theorem c3_witness :
    0 < ([0] : List Rec).length
    ∧ peOk [0] = none
    ∧ pipeSeq 10000 peOk ceOk [.ok [] 9] [0] [1]
      = (.processCall [0] [1] none :: (commitRun ceOk [1]).1,
          .finished (commitRun ceOk [1]).2) :=
  ⟨by decide, rfl, c3_amended.2.2.1 10000 peOk ceOk [] [0] [1] 9 (by decide) rfl⟩

/-- C9: the handed-off batch is mutated.  In main.go the overflow seal
sends `batch{items: buffer, cookie: cookies}` and then reuses the very
same backing arrays (`buffer = buffer[:0]` followed by
`buffer = append(buffer, items...)`, lines 138-143), overwriting the
front of the array the sent batch's `items` slice still points into.
In the slice model: a sealed view of length 2 over backing store `[7, 8]`
read after the fetch goroutine appends `[9]` yields `[9, 8]`, not the
sealed `[7, 8]` — the delivery stage does not read the records present at
sealing time. -/
theorem c9_batch_mutation :
    readView (writeInto [7, 8] [9]) 2 = [9, 8]
    ∧ readView [7, 8] 2 = [7, 8]
    ∧ readView (writeInto [7, 8] [9]) 2 ≠ readView [7, 8] 2 := by decide

end PipeVerify
